import Mathlib

/-!
A shallow embedding of the `ghost-sea` library: the `GhostCell`/`GhostToken`
pair and the `GhostLinkedList` built on half-share `StaticRc` pointers.

Heap model: nodes live in an append-only store (a `List` of nodes indexed by
address); a `StaticRc` half-share is represented by the address of its node
(`split` produces two copies of the address, `join` reunites them, `as_ptr`
is the address itself — per the split-ownership pointer contract, fractions
are type-level only and have no runtime content beyond the address).
Popped nodes stay in the store as unreachable garbage; fresh allocations use
the next never-used index, so no address is ever reused.

Fallible control flow: the `expect` calls in `pop_front`/`pop_back` (and the
`debug_assert` checks in `into_inner`) are modelled as `Option`-valued
results, `none` being the fatal abort.
-/

namespace GhostSea

/-- GhostToken with the brand erased: a zero-size capability value. -/
structure GhostToken where
  unit : Unit

/-- GhostCell with the brand erased: wraps one value of type `T`. -/
structure GhostCell (T : Type) where
  value : T
  deriving DecidableEq, Repr

/-- Embeds `GhostCell::new`: wraps the value. -/
def GhostCell.new (v : T) : GhostCell T := ⟨v⟩

/-- Embeds `GhostCell::into_inner`: consumes the cell, yields the value; no token. -/
def GhostCell.into_inner (c : GhostCell T) : T := c.value

/-- Embeds `GhostCell::borrow`: reads the value given a (shared) token; total, no failure path. -/
def GhostCell.borrow (c : GhostCell T) (_tok : GhostToken) : T := c.value

/-- Embeds a read through `GhostCell::borrow_mut`: total, no failure path. -/
def GhostCell.borrow_mut (c : GhostCell T) (_tok : GhostToken) : T := c.value

/-- Embeds a write through the reference returned by `GhostCell::borrow_mut`. -/
def GhostCell.write (_c : GhostCell T) (_tok : GhostToken) (v : T) : GhostCell T := ⟨v⟩

/-- Embeds `Node`: data plus optional prev/next half-share pointers (addresses). -/
structure Node (T : Type) where
  data : T
  prev : Option Nat
  next : Option Nat
  deriving DecidableEq, Repr

/-- The heap: an append-only store of nodes, indexed by address. -/
abbrev Store (T : Type) := List (Node T)

/-- Node stored at address `a`, if the address was ever allocated. -/
def nodeAt (s : Store T) (a : Nat) : Option (Node T) := s[a]?

/-- Data of the node at address `a`. -/
def dataAt (s : Store T) (a : Nat) : Option T := (nodeAt s a).map Node.data

/-- Value of the `next` field of the node at address `a`. -/
def nextAt (s : Store T) (a : Nat) : Option (Option Nat) := (nodeAt s a).map Node.next

/-- Value of the `prev` field of the node at address `a`. -/
def prevAt (s : Store T) (a : Nat) : Option (Option Nat) := (nodeAt s a).map Node.prev

/-- Writes through `borrow_mut` at address `a` (no-op on a never-allocated address,
which the list never does under its invariant). -/
def modifyNode (s : Store T) (a : Nat) (f : Node T → Node T) : Store T :=
  match s[a]? with
  | some n => s.set a (f n)
  | none => s

/-- Embeds `GhostLinkedList`: the store plus the optional (head, tail) half-share pair. -/
structure GhostLinkedList (T : Type) where
  store : Store T
  head_tail : Option (Nat × Nat)
  deriving DecidableEq, Repr

namespace GhostLinkedList

/-- Embeds `GhostLinkedList::new`. -/
def new : GhostLinkedList T := ⟨[], none⟩

/-- Embeds `GhostLinkedList::is_empty`. -/
def is_empty (l : GhostLinkedList T) : Bool := l.head_tail.isNone

/-- Embeds `GhostLinkedList::front`: data of the head node, `none` if empty. -/
def front (l : GhostLinkedList T) : Option T :=
  l.head_tail.bind fun ht => dataAt l.store ht.1

/-- Embeds `GhostLinkedList::back`: data of the tail node, `none` if empty. -/
def back (l : GhostLinkedList T) : Option T :=
  l.head_tail.bind fun ht => dataAt l.store ht.2

/-- Embeds `GhostLinkedList::front_mut` followed by an overwrite through the
returned reference: `none` when the list is empty (no reference returned). -/
def front_mut_write (l : GhostLinkedList T) (v : T) : Option (GhostLinkedList T) :=
  l.head_tail.map fun ht =>
    ⟨modifyNode l.store ht.1 (fun n => ⟨v, n.prev, n.next⟩), l.head_tail⟩

/-- Embeds `GhostLinkedList::back_mut` followed by an overwrite through the
returned reference: `none` when the list is empty. -/
def back_mut_write (l : GhostLinkedList T) (v : T) : Option (GhostLinkedList T) :=
  l.head_tail.map fun ht =>
    ⟨modifyNode l.store ht.2 (fun n => ⟨v, n.prev, n.next⟩), l.head_tail⟩

/-- Embeds `GhostLinkedList::new_halves`: allocates a fresh full-share node and
splits it; both halves carry the same fresh address. -/
def new_halves (s : Store T) (data : T) : Store T × Nat :=
  (s ++ [⟨data, none, none⟩], s.length)

/-- Embeds `GhostLinkedList::into_inner` on a reunited full share: extracts the
data; the `debug_assert` checks (no remaining prev/next) are the `none` path. -/
def node_into_inner (s : Store T) (a : Nat) : Option T :=
  match nodeAt s a with
  | some n => if n.prev = none ∧ n.next = none then some n.data else none
  | none => none

/-- Embeds `GhostLinkedList::push_front`. -/
def push_front (l : GhostLinkedList T) (data : T) : GhostLinkedList T :=
  let an := new_halves l.store data
  match l.head_tail with
  | some (h, t) =>
    let s1 := modifyNode an.1 h (fun n => ⟨n.data, some an.2, n.next⟩)
    let s2 := modifyNode s1 an.2 (fun n => ⟨n.data, n.prev, some h⟩)
    ⟨s2, some (an.2, t)⟩
  | none => ⟨an.1, some (an.2, an.2)⟩

/-- Embeds `GhostLinkedList::push_back`. -/
def push_back (l : GhostLinkedList T) (data : T) : GhostLinkedList T :=
  let an := new_halves l.store data
  match l.head_tail with
  | some (h, t) =>
    let s1 := modifyNode an.1 t (fun n => ⟨n.data, n.prev, some an.2⟩)
    let s2 := modifyNode s1 an.2 (fun n => ⟨n.data, some t, n.next⟩)
    ⟨s2, some (h, an.2)⟩
  | none => ⟨an.1, some (an.2, an.2)⟩

/-- Embeds `GhostLinkedList::pop_front`. The outer `none` is the fatal path
(a failed `expect` or `debug_assert`); `some (none, _)` is the empty list. -/
def pop_front (l : GhostLinkedList T) : Option (Option T × GhostLinkedList T) :=
  match l.head_tail with
  | none => some (none, ⟨l.store, none⟩)
  | some (h, t) =>
    if h = t then
      (node_into_inner l.store h).map fun d => (some d, ⟨l.store, none⟩)
    else
      match nodeAt l.store h with
      | none => none
      | some hn =>
        match hn.next with
        | none => none
        | some nx =>
          let s1 := l.store.set h ⟨hn.data, hn.prev, none⟩
          match nodeAt s1 nx with
          | none => none
          | some nn =>
            match nn.prev with
            | none => none
            | some _ =>
              let s2 := s1.set nx ⟨nn.data, none, nn.next⟩
              (node_into_inner s2 h).map fun d => (some d, ⟨s2, some (nx, t)⟩)

/-- Embeds `GhostLinkedList::pop_back`; mirror image of `pop_front`. -/
def pop_back (l : GhostLinkedList T) : Option (Option T × GhostLinkedList T) :=
  match l.head_tail with
  | none => some (none, ⟨l.store, none⟩)
  | some (h, t) =>
    if h = t then
      (node_into_inner l.store h).map fun d => (some d, ⟨l.store, none⟩)
    else
      match nodeAt l.store t with
      | none => none
      | some tn =>
        match tn.prev with
        | none => none
        | some pv =>
          let s1 := l.store.set t ⟨tn.data, none, tn.next⟩
          match nodeAt s1 pv with
          | none => none
          | some pn =>
            match pn.next with
            | none => none
            | some _ =>
              let s2 := s1.set pv ⟨pn.data, pn.prev, none⟩
              (node_into_inner s2 t).map fun d => (some d, ⟨s2, some (h, pv)⟩)

end GhostLinkedList

/-- Embeds `GhostLinkedListIterator`: the borrowed store (through the token)
plus the current (head, tail) cursor pair. -/
structure GhostLinkedListIterator (T : Type) where
  store : Store T
  head_tail : Option (Nat × Nat)
  deriving DecidableEq, Repr

/-- Embeds `GhostLinkedList::iter`. -/
def GhostLinkedList.iter (l : GhostLinkedList T) : GhostLinkedListIterator T :=
  ⟨l.store, l.head_tail⟩

namespace GhostLinkedListIterator

/-- Embeds `Iterator::next`: reads the current head node, yields its data, and
moves the head cursor to the node's `next` pointer (`none` head_tail when the
node has no next). The outer `none` is a read of a never-allocated address,
impossible on iterators of valid lists. -/
def next (it : GhostLinkedListIterator T) : Option (Option T × GhostLinkedListIterator T) :=
  match it.head_tail with
  | none => some (none, it)
  | some (h, t) =>
    match nodeAt it.store h with
    | none => none
    | some n => some (some n.data, ⟨it.store, n.next.map fun nx => (nx, t)⟩)

/-- Embeds `DoubleEndedIterator::next_back`; mirror image of `next`. -/
def next_back (it : GhostLinkedListIterator T) : Option (Option T × GhostLinkedListIterator T) :=
  match it.head_tail with
  | none => some (none, it)
  | some (h, t) =>
    match nodeAt it.store t with
    | none => none
    | some n => some (some n.data, ⟨it.store, n.prev.map fun pv => (h, pv)⟩)

/-- Runs `next` until it reports exhaustion, collecting the yielded elements;
fuel-bounded (`none` on fuel exhaustion or an invalid read). -/
def collectNext : Nat → GhostLinkedListIterator T → Option (List T)
  | 0, it =>
    match next it with
    | some (none, _) => some []
    | _ => none
  | f + 1, it =>
    match next it with
    | none => none
    | some (none, _) => some []
    | some (some v, it2) => (collectNext f it2).map fun l => v :: l

/-- Runs `next_back` until it reports exhaustion, collecting the yielded
elements; fuel-bounded. -/
def collectBack : Nat → GhostLinkedListIterator T → Option (List T)
  | 0, it =>
    match next_back it with
    | some (none, _) => some []
    | _ => none
  | f + 1, it =>
    match next_back it with
    | none => none
    | some (none, _) => some []
    | some (some v, it2) => (collectBack f it2).map fun l => v :: l

end GhostLinkedListIterator

/-- The full front-to-back traversal of a list, with enough fuel for any list
whose live chain has no duplicate addresses. -/
def GhostLinkedList.iterFwdList (l : GhostLinkedList T) : Option (List T) :=
  GhostLinkedListIterator.collectNext l.store.length l.iter

/-- The full back-to-front traversal of a list. -/
def GhostLinkedList.iterBwdList (l : GhostLinkedList T) : Option (List T) :=
  GhostLinkedListIterator.collectBack l.store.length l.iter

/-- Embeds `GhostLinkedList::len`: the number of elements yielded by a full
forward traversal (`iter(token).count()`). -/
def GhostLinkedList.len (l : GhostLinkedList T) : Nat :=
  ((l.iterFwdList).getD []).length

/-- One public mutating operation of the list API. -/
inductive Op (T : Type) where
  | pushF (v : T)
  | pushB (v : T)
  | popF
  | popB
  deriving DecidableEq, Repr

/-- Reference double-ended-queue model: runs the operations on a plain list
(front at the head), collecting the result of every pop. -/
def modelRun : List (Op T) → List T → List (Option T) × List T
  | [], m => ([], m)
  | .pushF v :: ops, m => modelRun ops (v :: m)
  | .pushB v :: ops, m => modelRun ops (m ++ [v])
  | .popF :: ops, m =>
    match m with
    | [] =>
      let r := modelRun ops []
      (none :: r.1, r.2)
    | x :: xs =>
      let r := modelRun ops xs
      (some x :: r.1, r.2)
  | .popB :: ops, m =>
    match m.getLast? with
    | none =>
      let r := modelRun ops []
      (none :: r.1, r.2)
    | some x =>
      let r := modelRun ops m.dropLast
      (some x :: r.1, r.2)

/-- Runs the operations on the embedded list, collecting the result of every
pop; `none` if any operation hits a fatal path. -/
def runOps : List (Op T) → GhostLinkedList T → Option (List (Option T) × GhostLinkedList T)
  | [], l => some ([], l)
  | .pushF v :: ops, l => runOps ops (l.push_front v)
  | .pushB v :: ops, l => runOps ops (l.push_back v)
  | .popF :: ops, l =>
    match l.pop_front with
    | none => none
    | some (r, l2) => (runOps ops l2).map fun p => (r :: p.1, p.2)
  | .popB :: ops, l =>
    match l.pop_back with
    | none => none
    | some (r, l2) => (runOps ops l2).map fun p => (r :: p.1, p.2)

/-!
The chain invariant: a non-empty list is described by the list `c` of the
addresses of its nodes, front to back.
-/

/-- Consecutive chain members are doubly linked: each one's `next` points to
its successor, whose `prev` points back. -/
def Linked (s : Store T) : List Nat → Prop
  | [] => True
  | [_] => True
  | a :: b :: rest => nextAt s a = some (some b) ∧ prevAt s b = some (some a) ∧
      Linked s (b :: rest)

/-- The address chain `c` of a non-empty list with head `h` and tail `t`. -/
structure ChainInv (s : Store T) (c : List Nat) (h t : Nat) : Prop where
  ne : c ≠ []
  headEq : c.head? = some h
  lastEq : c.getLast? = some t
  nodup : c.Nodup
  valid : ∀ a ∈ c, a < s.length
  linked : Linked s c
  headPrev : prevAt s h = some none
  tailNext : nextAt s t = some none

/-- The data stored along an address chain. -/
def chainData (s : Store T) (c : List Nat) : List T :=
  c.filterMap fun a => dataAt s a

/-- The list state represents the abstract sequence `m`. -/
def Represents (l : GhostLinkedList T) (m : List T) : Prop :=
  match l.head_tail with
  | none => m = []
  | some (h, t) => ∃ c, ChainInv l.store c h t ∧ m = chainData l.store c

/-!
Store access lemmas.
-/

theorem nodeAt_set_ne {s : Store T} {i j : Nat} (n : Node T) (h : i ≠ j) :
    nodeAt (s.set i n) j = nodeAt s j := by
  simp [nodeAt, List.getElem?_set_ne h]

theorem nodeAt_set_self {s : Store T} {i : Nat} (n : Node T) (h : i < s.length) :
    nodeAt (s.set i n) i = some n := by
  simp [nodeAt, List.getElem?_set_self h]

theorem nodeAt_append_lt {s : Store T} (n : Node T) {j : Nat} (h : j < s.length) :
    nodeAt (s ++ [n]) j = nodeAt s j := by
  simp [nodeAt, List.getElem?_append_left h]

theorem nodeAt_append_len {s : Store T} (n : Node T) :
    nodeAt (s ++ [n]) s.length = some n := by
  simp [nodeAt]

theorem nodeAt_isSome {s : Store T} {a : Nat} (h : a < s.length) :
    ∃ n, nodeAt s a = some n := by
  simp [nodeAt, List.getElem?_eq_getElem h]

theorem modifyNode_eq_set {s : Store T} {a : Nat} {n : Node T} (f : Node T → Node T)
    (h : nodeAt s a = some n) : modifyNode s a f = s.set a (f n) := by
  simp only [nodeAt] at h
  simp [modifyNode, h]

theorem length_modifyNode {s : Store T} (a : Nat) (f : Node T → Node T) :
    (modifyNode s a f).length = s.length := by
  unfold modifyNode
  cases s[a]? <;> simp

/-!
Chain lemmas.
-/

/-- Forward links only: each chain member's `next` points to its successor. -/
def FwdLinked (s : Store T) : List Nat → Prop
  | [] => True
  | [_] => True
  | a :: b :: rest => nextAt s a = some (some b) ∧ FwdLinked s (b :: rest)

/-- Backward links only: each chain member's `prev` points to its successor
(the chain runs back-to-front). -/
def BwdLinked (s : Store T) : List Nat → Prop
  | [] => True
  | [_] => True
  | a :: b :: rest => prevAt s a = some (some b) ∧ BwdLinked s (b :: rest)

theorem Linked.fwd {s : Store T} {c : List Nat} (h : Linked s c) : FwdLinked s c := by
  induction c with
  | nil => trivial
  | cons a rest ih =>
    cases rest with
    | nil => trivial
    | cons b rest2 =>
      obtain ⟨h1, _, h3⟩ := h
      exact ⟨h1, ih h3⟩

theorem Linked_congr {s s' : Store T} {c : List Nat}
    (hn : ∀ a ∈ c.dropLast, nextAt s' a = nextAt s a)
    (hp : ∀ a ∈ c.tail, prevAt s' a = prevAt s a)
    (hl : Linked s c) : Linked s' c := by
  induction c with
  | nil => trivial
  | cons a rest ih =>
    cases rest with
    | nil => trivial
    | cons b rest2 =>
      obtain ⟨h1, h2, h3⟩ := hl
      refine ⟨?_, ?_, ?_⟩
      · rw [hn a (by simp)]
        exact h1
      · rw [hp b (by simp)]
        exact h2
      · refine ih ?_ ?_ h3
        · intro x hx
          exact hn x (by simp at hx ⊢; tauto)
        · intro x hx
          exact hp x (by simp at hx ⊢; tauto)

theorem Linked_concat {s : Store T} {c : List Nat} {p a : Nat}
    (hl : Linked s c) (hlast : c.getLast? = some p)
    (hnext : nextAt s p = some (some a)) (hprev : prevAt s a = some (some p)) :
    Linked s (c ++ [a]) := by
  induction c with
  | nil => simp at hlast
  | cons x rest ih =>
    cases rest with
    | nil =>
      simp at hlast
      subst hlast
      exact ⟨hnext, hprev, trivial⟩
    | cons y rest2 =>
      obtain ⟨h1, h2, h3⟩ := hl
      rw [List.getLast?_cons_cons] at hlast
      exact ⟨h1, h2, ih h3 hlast⟩

theorem Linked_of_concat {s : Store T} {d : List Nat} {a : Nat}
    (hl : Linked s (d ++ [a])) : Linked s d := by
  induction d with
  | nil => trivial
  | cons x rest ih =>
    cases rest with
    | nil => trivial
    | cons y rest2 =>
      obtain ⟨h1, h2, h3⟩ := hl
      exact ⟨h1, h2, ih h3⟩

theorem Linked_concat_last {s : Store T} {d : List Nat} {p a : Nat}
    (hl : Linked s (d ++ [a])) (hp : d.getLast? = some p) :
    nextAt s p = some (some a) ∧ prevAt s a = some (some p) := by
  induction d with
  | nil => simp at hp
  | cons x rest ih =>
    cases rest with
    | nil =>
      simp at hp
      subst hp
      exact ⟨hl.1, hl.2.1⟩
    | cons y rest2 =>
      obtain ⟨_, _, h3⟩ := hl
      rw [List.getLast?_cons_cons] at hp
      exact ih h3 hp

theorem BwdLinked_concat {s : Store T} {c : List Nat} {q a : Nat}
    (h : BwdLinked s c) (hlast : c.getLast? = some q)
    (hq : prevAt s q = some (some a)) : BwdLinked s (c ++ [a]) := by
  induction c with
  | nil => simp at hlast
  | cons x rest ih =>
    cases rest with
    | nil =>
      simp at hlast
      subst hlast
      exact ⟨hq, trivial⟩
    | cons y rest2 =>
      obtain ⟨h1, h2⟩ := h
      rw [List.getLast?_cons_cons] at hlast
      exact ⟨h1, ih h2 hlast⟩

theorem Linked.bwd_reverse {s : Store T} {c : List Nat} (hl : Linked s c) :
    BwdLinked s c.reverse := by
  induction c with
  | nil => trivial
  | cons x rest ih =>
    cases rest with
    | nil => trivial
    | cons y rest2 =>
      obtain ⟨h1, h2, h3⟩ := hl
      have hrev : (x :: y :: rest2).reverse = (y :: rest2).reverse ++ [x] := by
        simp
      rw [hrev]
      refine BwdLinked_concat (ih h3) ?_ h2
      rw [List.getLast?_reverse]
      rfl

/-!
Chain data lemmas.
-/

theorem chainData_cons {s : Store T} {a : Nat} {c : List Nat} {n : Node T}
    (h : nodeAt s a = some n) : chainData s (a :: c) = n.data :: chainData s c := by
  simp [chainData, List.filterMap_cons, dataAt, h]

theorem chainData_congr {s s' : Store T} {c : List Nat}
    (h : ∀ a ∈ c, dataAt s' a = dataAt s a) : chainData s' c = chainData s c := by
  unfold chainData
  exact List.filterMap_congr h

theorem chainData_append (s : Store T) (c d : List Nat) :
    chainData s (c ++ d) = chainData s c ++ chainData s d := by
  unfold chainData
  exact List.filterMap_append c d _

theorem chainData_reverse (s : Store T) (c : List Nat) :
    chainData s c.reverse = (chainData s c).reverse := by
  unfold chainData
  exact List.filterMap_reverse _ c

theorem chainData_length {s : Store T} {c : List Nat}
    (hv : ∀ a ∈ c, a < s.length) : (chainData s c).length = c.length := by
  induction c with
  | nil => rfl
  | cons a rest ih =>
    obtain ⟨n, hn⟩ := nodeAt_isSome (hv a (by simp))
    rw [chainData_cons hn]
    simp only [List.length_cons]
    rw [ih fun x hx => hv x (by simp [hx])]

theorem nodup_length_le {c : List Nat} {n : Nat}
    (hnd : c.Nodup) (hv : ∀ a ∈ c, a < n) : c.length ≤ n := by
  classical
  have hsub : c.toFinset ⊆ Finset.range n := by
    intro x hx
    simp only [Finset.mem_range]
    exact hv x (List.mem_toFinset.mp hx)
  have := Finset.card_le_card hsub
  rw [List.toFinset_card_of_nodup hnd, Finset.card_range] at this
  exact this

/-!
Traversal lemmas.
-/

namespace GhostLinkedListIterator

theorem collectNext_done (fuel : Nat) (s : Store T) :
    collectNext fuel ⟨s, none⟩ = some [] := by
  cases fuel <;> simp [collectNext, next]

theorem collectBack_done (fuel : Nat) (s : Store T) :
    collectBack fuel ⟨s, none⟩ = some [] := by
  cases fuel <;> simp [collectBack, next_back]

theorem collectNext_path {s : Store T} (t' : Nat) (c : List Nat) (h fuel : Nat)
    (hf : FwdLinked s c) (hh : c.head? = some h)
    (hend : ∀ tl, c.getLast? = some tl → nextAt s tl = some none)
    (hv : ∀ a ∈ c, a < s.length) (hfuel : c.length ≤ fuel) :
    collectNext fuel ⟨s, some (h, t')⟩ = some (chainData s c) := by
  induction c generalizing h fuel with
  | nil => simp at hh
  | cons a rest ih =>
    simp only [List.head?_cons, Option.some.injEq] at hh
    subst hh
    obtain ⟨n, hn⟩ := nodeAt_isSome (hv a (by simp))
    obtain ⟨f, rfl⟩ : ∃ f, fuel = f + 1 := by
      cases fuel with
      | zero => simp at hfuel
      | succ f => exact ⟨f, rfl⟩
    cases rest with
    | nil =>
      have hnext : n.next = none := by
        have := hend a (by simp)
        rw [nextAt, hn] at this
        simpa using this
      rw [chainData_cons hn]
      simp [collectNext, next, hn, hnext, collectNext_done, chainData]
    | cons b rest2 =>
      obtain ⟨h1, hf2⟩ := hf
      have hnext : n.next = some b := by
        rw [nextAt, hn] at h1
        simpa using h1
      have hrest := ih b f hf2 rfl
        (fun tl htl => hend tl (by rw [List.getLast?_cons_cons]; exact htl))
        (fun x hx => hv x (by simp [hx]))
        (by simpa using Nat.le_of_succ_le_succ hfuel)
      rw [chainData_cons hn]
      simp [collectNext, next, hn, hnext, hrest]

theorem collectBack_path {s : Store T} (h' : Nat) (c : List Nat) (t fuel : Nat)
    (hb : BwdLinked s c) (hh : c.head? = some t)
    (hend : ∀ hd, c.getLast? = some hd → prevAt s hd = some none)
    (hv : ∀ a ∈ c, a < s.length) (hfuel : c.length ≤ fuel) :
    collectBack fuel ⟨s, some (h', t)⟩ = some (chainData s c) := by
  induction c generalizing t fuel with
  | nil => simp at hh
  | cons a rest ih =>
    simp only [List.head?_cons, Option.some.injEq] at hh
    subst hh
    obtain ⟨n, hn⟩ := nodeAt_isSome (hv a (by simp))
    obtain ⟨f, rfl⟩ : ∃ f, fuel = f + 1 := by
      cases fuel with
      | zero => simp at hfuel
      | succ f => exact ⟨f, rfl⟩
    cases rest with
    | nil =>
      have hprev : n.prev = none := by
        have := hend a (by simp)
        rw [prevAt, hn] at this
        simpa using this
      rw [chainData_cons hn]
      simp [collectBack, next_back, hn, hprev, collectBack_done, chainData]
    | cons b rest2 =>
      obtain ⟨h1, hb2⟩ := hb
      have hprev : n.prev = some b := by
        rw [prevAt, hn] at h1
        simpa using h1
      have hrest := ih b f hb2 rfl
        (fun hd hhd => hend hd (by rw [List.getLast?_cons_cons]; exact hhd))
        (fun x hx => hv x (by simp [hx]))
        (by simpa using Nat.le_of_succ_le_succ hfuel)
      rw [chainData_cons hn]
      simp [collectBack, next_back, hn, hprev, hrest]

end GhostLinkedListIterator

/-!
Chain invariant utilities.
-/

theorem ChainInv.head_mem {s : Store T} {c : List Nat} {h t : Nat}
    (hc : ChainInv s c h t) : h ∈ c :=
  List.mem_of_mem_head? hc.headEq

theorem ChainInv.last_mem {s : Store T} {c : List Nat} {h t : Nat}
    (hc : ChainInv s c h t) : t ∈ c :=
  List.mem_of_mem_getLast? hc.lastEq

theorem ChainInv.cons_decomp {s : Store T} {c : List Nat} {h t : Nat}
    (hc : ChainInv s c h t) : ∃ c', c = h :: c' := by
  cases c with
  | nil => exact absurd rfl hc.ne
  | cons x rest =>
    have := hc.headEq
    simp only [List.head?_cons, Option.some.injEq] at this
    exact ⟨rest, by rw [this]⟩

theorem ChainInv.concat_decomp {s : Store T} {c : List Nat} {h t : Nat}
    (hc : ChainInv s c h t) : c = c.dropLast ++ [t] :=
  (List.dropLast_append_getLast? t hc.lastEq).symm

theorem getLast?_cons_of_ne_nil {c : List Nat} (a : Nat) (h : c ≠ []) :
    (a :: c).getLast? = c.getLast? := by
  cases c with
  | nil => exact absurd rfl h
  | cons x rest => exact List.getLast?_cons_cons

theorem ChainInv.single_iff {s : Store T} {c : List Nat} {h t : Nat}
    (hc : ChainInv s c h t) : h = t ↔ c = [h] := by
  obtain ⟨c', rfl⟩ := hc.cons_decomp
  constructor
  · intro he
    cases hc' : c' with
    | nil => rfl
    | cons y rest =>
      exfalso
      have hlast := hc.lastEq
      rw [hc', getLast?_cons_of_ne_nil h (by simp)] at hlast
      have : t ∈ y :: rest := List.mem_of_mem_getLast? hlast
      have hnd := hc.nodup
      rw [hc'] at hnd
      rw [← he] at this
      exact (List.nodup_cons.mp hnd).1 this
  · intro he
    have hlast := hc.lastEq
    rw [he] at hlast
    simp at hlast
    exact hlast

theorem iterFwdList_of_chain (l : GhostLinkedList T) {c : List Nat} {h t : Nat}
    (hht : l.head_tail = some (h, t)) (hc : ChainInv l.store c h t) :
    l.iterFwdList = some (chainData l.store c) := by
  unfold GhostLinkedList.iterFwdList GhostLinkedList.iter
  rw [hht]
  refine GhostLinkedListIterator.collectNext_path t c h _ hc.linked.fwd hc.headEq
    ?_ hc.valid (nodup_length_le hc.nodup hc.valid)
  intro tl htl
  rw [hc.lastEq] at htl
  injection htl with he
  rw [← he]
  exact hc.tailNext

theorem iterBwdList_of_chain (l : GhostLinkedList T) {c : List Nat} {h t : Nat}
    (hht : l.head_tail = some (h, t)) (hc : ChainInv l.store c h t) :
    l.iterBwdList = some (chainData l.store c).reverse := by
  unfold GhostLinkedList.iterBwdList GhostLinkedList.iter
  rw [hht, ← chainData_reverse]
  refine GhostLinkedListIterator.collectBack_path h c.reverse t _ hc.linked.bwd_reverse
    ?_ ?_ (fun a ha => hc.valid a (List.mem_reverse.mp ha))
    (by simpa using nodup_length_le hc.nodup hc.valid)
  · rw [List.head?_reverse]
    exact hc.lastEq
  · intro hd hhd
    rw [List.getLast?_reverse, hc.headEq] at hhd
    injection hhd with he
    rw [← he]
    exact hc.headPrev

theorem iterFwdList_represent {l : GhostLinkedList T} {m : List T}
    (hr : Represents l m) : l.iterFwdList = some m := by
  unfold Represents at hr
  cases hht : l.head_tail with
  | none =>
    rw [hht] at hr
    subst hr
    unfold GhostLinkedList.iterFwdList GhostLinkedList.iter
    rw [hht]
    exact GhostLinkedListIterator.collectNext_done _ _
  | some p =>
    rw [hht] at hr
    obtain ⟨c, hc, rfl⟩ := hr
    exact iterFwdList_of_chain l hht hc

theorem iterBwdList_represent {l : GhostLinkedList T} {m : List T}
    (hr : Represents l m) : l.iterBwdList = some m.reverse := by
  unfold Represents at hr
  cases hht : l.head_tail with
  | none =>
    rw [hht] at hr
    subst hr
    unfold GhostLinkedList.iterBwdList GhostLinkedList.iter
    rw [hht]
    exact GhostLinkedListIterator.collectBack_done _ _
  | some p =>
    rw [hht] at hr
    obtain ⟨c, hc, rfl⟩ := hr
    exact iterBwdList_of_chain l hht hc

theorem len_represent {l : GhostLinkedList T} {m : List T}
    (hr : Represents l m) : l.len = m.length := by
  unfold GhostLinkedList.len
  rw [iterFwdList_represent hr]
  rfl

/-!
Operation correctness: each operation refines the reference deque model.
-/

theorem represents_some {l : GhostLinkedList T} {h t : Nat} {c : List Nat} {m : List T}
    (hht : l.head_tail = some (h, t)) (hc : ChainInv l.store c h t)
    (hm : m = chainData l.store c) : Represents l m := by
  unfold Represents
  rw [hht]
  exact ⟨c, hc, hm⟩

theorem represents_none {l : GhostLinkedList T} (hht : l.head_tail = none) :
    Represents l [] := by
  unfold Represents
  rw [hht]

theorem represents_new : Represents (GhostLinkedList.new : GhostLinkedList T) [] :=
  represents_none rfl

theorem nodeAt_append_ne {s : Store T} (n : Node T) {j : Nat} (h : j ≠ s.length) :
    nodeAt (s ++ [n]) j = nodeAt s j := by
  rcases Nat.lt_or_ge j s.length with hlt | hge
  · exact nodeAt_append_lt _ hlt
  · have hgt : s.length < j := lt_of_le_of_ne hge (Ne.symm h)
    unfold nodeAt
    rw [List.getElem?_eq_none_iff.mpr (by simpa using hgt),
      List.getElem?_eq_none_iff.mpr (le_of_lt hgt)]

theorem not_mem_dropLast_of_getLast? {d : List Nat} {p : Nat}
    (hnd : d.Nodup) (hp : d.getLast? = some p) : p ∉ d.dropLast := by
  intro hmem
  rw [← List.dropLast_append_getLast? p hp] at hnd
  exact List.disjoint_of_nodup_append hnd hmem (by simp)

/-- Chain surgery for `push_front` on a non-empty list: the fresh node `a`
becomes the head, pointing at the old head `h`, whose `prev` now points back. -/
theorem chain_extend_front {s s2 : Store T} {c' : List Nat} {h t a : Nat} {v : T} {hn : Node T}
    (hc : ChainInv s (h :: c') h t)
    (hhn : nodeAt s h = some hn)
    (ha : a = s.length)
    (hlen2 : s2.length = s.length + 1)
    (hn2a : nodeAt s2 a = some ⟨v, none, some h⟩)
    (hn2h : nodeAt s2 h = some ⟨hn.data, some a, hn.next⟩)
    (hother : ∀ x, x ≠ a → x ≠ h → nodeAt s2 x = nodeAt s x) :
    ChainInv s2 (a :: h :: c') a t ∧
      chainData s2 (a :: h :: c') = v :: chainData s (h :: c') := by
  have hmem_ne_a : ∀ x ∈ h :: c', x ≠ a := by
    intro x hx he
    have := hc.valid x hx
    rw [he, ha] at this
    exact lt_irrefl _ this
  have hdata2 : ∀ x ∈ h :: c', dataAt s2 x = dataAt s x := by
    intro x hx
    by_cases hxh : x = h
    · subst hxh
      simp [dataAt, hn2h, hhn]
    · rw [dataAt, hother x (hmem_ne_a x hx) hxh, dataAt]
  have hnext2 : ∀ x ∈ h :: c', nextAt s2 x = nextAt s x := by
    intro x hx
    by_cases hxh : x = h
    · subst hxh
      simp [nextAt, hn2h, hhn]
    · rw [nextAt, hother x (hmem_ne_a x hx) hxh, nextAt]
  have hprev2 : ∀ x ∈ c', prevAt s2 x = prevAt s x := by
    intro x hx
    have hxh : x ≠ h := by
      intro he
      subst he
      exact (List.nodup_cons.mp hc.nodup).1 hx
    rw [prevAt, hother x (hmem_ne_a x (by simp [hx])) hxh, prevAt]
  refine ⟨⟨by simp, rfl, ?_, ?_, ?_, ?_, ?_, ?_⟩, ?_⟩
  · rw [List.getLast?_cons_cons]
    exact hc.lastEq
  · rw [List.nodup_cons]
    exact ⟨fun hmem => (hmem_ne_a a hmem) rfl, hc.nodup⟩
  · intro x hx
    rw [hlen2]
    rcases List.mem_cons.mp hx with rfl | hx2
    · omega
    · have := hc.valid x hx2
      omega
  · refine ⟨?_, ?_, ?_⟩
    · rw [nextAt, hn2a]
      rfl
    · rw [prevAt, hn2h]
      rfl
    · refine Linked_congr ?_ hprev2 hc.linked
      intro x hx
      exact hnext2 x (List.dropLast_subset _ hx)
  · rw [prevAt, hn2a]
    rfl
  · rw [hnext2 t hc.last_mem]
    exact hc.tailNext
  · rw [chainData_cons hn2a, chainData_congr hdata2]

theorem push_front_correct {l : GhostLinkedList T} {m : List T} (v : T)
    (hr : Represents l m) : Represents (l.push_front v) (v :: m) := by
  unfold Represents at hr
  cases hht : l.head_tail with
  | none =>
    rw [hht] at hr
    subst hr
    have hres : l.push_front v =
        ⟨l.store ++ [⟨v, none, none⟩], some (l.store.length, l.store.length)⟩ := by
      unfold GhostLinkedList.push_front GhostLinkedList.new_halves
      rw [hht]
    rw [hres]
    refine represents_some rfl (c := [l.store.length]) ?_ ?_
    · refine ⟨by simp, rfl, rfl, by simp, ?_, trivial, ?_, ?_⟩
      · intro x hx
        simp at hx
        subst hx
        simp
      · rw [prevAt, nodeAt_append_len]
        rfl
      · rw [nextAt, nodeAt_append_len]
        rfl
    · rw [chainData_cons (nodeAt_append_len _)]
      rfl
  | some p =>
    obtain ⟨h, t⟩ := p
    rw [hht] at hr
    obtain ⟨c, hc, rfl⟩ := hr
    obtain ⟨c', rfl⟩ := hc.cons_decomp
    have hhlt : h < l.store.length := hc.valid h (by simp)
    obtain ⟨hn, hhn⟩ := nodeAt_isSome hhlt
    have hha : h ≠ l.store.length := Nat.ne_of_lt hhlt
    have hn0h : nodeAt (l.store ++ [(⟨v, none, none⟩ : Node T)]) h = some hn :=
      (nodeAt_append_lt _ hhlt).trans hhn
    have hn1a : nodeAt ((l.store ++ [(⟨v, none, none⟩ : Node T)]).set h
        ⟨hn.data, some l.store.length, hn.next⟩) l.store.length =
        some ⟨v, none, none⟩ := by
      rw [nodeAt_set_ne _ hha]
      exact nodeAt_append_len _
    have hres : l.push_front v =
        ⟨((l.store ++ [(⟨v, none, none⟩ : Node T)]).set h
            ⟨hn.data, some l.store.length, hn.next⟩).set
            l.store.length ⟨v, none, some h⟩,
          some (l.store.length, t)⟩ := by
      unfold GhostLinkedList.push_front GhostLinkedList.new_halves
      rw [hht]
      simp only []
      rw [modifyNode_eq_set _ hn0h, modifyNode_eq_set _ hn1a]
    rw [hres]
    have hlen : (((l.store ++ [(⟨v, none, none⟩ : Node T)]).set h
        ⟨hn.data, some l.store.length, hn.next⟩).set l.store.length
        ⟨v, none, some h⟩).length = l.store.length + 1 := by
      simp
    have h2a : nodeAt (((l.store ++ [(⟨v, none, none⟩ : Node T)]).set h
        ⟨hn.data, some l.store.length, hn.next⟩).set l.store.length ⟨v, none, some h⟩)
        l.store.length = some ⟨v, none, some h⟩ := by
      refine nodeAt_set_self _ ?_
      simp
    have h2h : nodeAt (((l.store ++ [(⟨v, none, none⟩ : Node T)]).set h
        ⟨hn.data, some l.store.length, hn.next⟩).set l.store.length ⟨v, none, some h⟩) h =
        some ⟨hn.data, some l.store.length, hn.next⟩ := by
      rw [nodeAt_set_ne _ (Ne.symm hha)]
      refine (nodeAt_set_self _ ?_).trans ?_
      · simpa using Nat.lt_succ_of_lt hhlt
      · rfl
    have hoth : ∀ x, x ≠ l.store.length → x ≠ h →
        nodeAt (((l.store ++ [(⟨v, none, none⟩ : Node T)]).set h
          ⟨hn.data, some l.store.length, hn.next⟩).set l.store.length ⟨v, none, some h⟩) x =
        nodeAt l.store x := by
      intro x hxa hxh
      rw [nodeAt_set_ne _ (Ne.symm hxa), nodeAt_set_ne _ (Ne.symm hxh)]
      exact nodeAt_append_ne _ hxa
    have hext := chain_extend_front hc hhn rfl hlen h2a h2h hoth
    exact represents_some rfl hext.1 hext.2.symm

/-- Chain surgery for `push_back` on a non-empty list: the fresh node `a`
becomes the tail, pointing back at the old tail `t`, whose `next` now points
forward. -/
theorem chain_extend_back {s s2 : Store T} {c : List Nat} {h t a : Nat} {v : T} {tn : Node T}
    (hc : ChainInv s c h t)
    (htn : nodeAt s t = some tn)
    (ha : a = s.length)
    (hlen2 : s2.length = s.length + 1)
    (hn2a : nodeAt s2 a = some ⟨v, some t, none⟩)
    (hn2t : nodeAt s2 t = some ⟨tn.data, tn.prev, some a⟩)
    (hother : ∀ x, x ≠ a → x ≠ t → nodeAt s2 x = nodeAt s x) :
    ChainInv s2 (c ++ [a]) h a ∧
      chainData s2 (c ++ [a]) = chainData s c ++ [v] := by
  have hmem_ne_a : ∀ x ∈ c, x ≠ a := by
    intro x hx he
    have := hc.valid x hx
    rw [he, ha] at this
    exact lt_irrefl _ this
  have hdata2 : ∀ x ∈ c, dataAt s2 x = dataAt s x := by
    intro x hx
    by_cases hxt : x = t
    · subst hxt
      simp [dataAt, hn2t, htn]
    · rw [dataAt, hother x (hmem_ne_a x hx) hxt, dataAt]
  have hprev2 : ∀ x ∈ c, prevAt s2 x = prevAt s x := by
    intro x hx
    by_cases hxt : x = t
    · subst hxt
      simp [prevAt, hn2t, htn]
    · rw [prevAt, hother x (hmem_ne_a x hx) hxt, prevAt]
  have hnext2 : ∀ x ∈ c.dropLast, nextAt s2 x = nextAt s x := by
    intro x hx
    have hxt : x ≠ t := by
      intro he
      subst he
      exact not_mem_dropLast_of_getLast? hc.nodup hc.lastEq hx
    rw [nextAt, hother x (hmem_ne_a x (List.dropLast_subset _ hx)) hxt, nextAt]
  obtain ⟨c', hcc⟩ := hc.cons_decomp
  refine ⟨⟨by simp, ?_, ?_, ?_, ?_, ?_, ?_, ?_⟩, ?_⟩
  · rw [hcc]
    rfl
  · rw [List.getLast?_concat]
  · rw [List.nodup_append]
    refine ⟨hc.nodup, by simp, ?_⟩
    intro x hx
    simp only [List.mem_singleton]
    exact hmem_ne_a x hx
  · intro x hx
    rw [hlen2]
    rcases List.mem_append.mp hx with hx2 | hx2
    · have := hc.valid x hx2
      omega
    · simp only [List.mem_singleton] at hx2
      omega
  · refine Linked_concat ?_ hc.lastEq ?_ ?_
    · refine Linked_congr hnext2 (fun x hx => hprev2 x (List.tail_subset _ hx)) hc.linked
    · rw [nextAt, hn2t]
      rfl
    · rw [prevAt, hn2a]
      rfl
  · rw [hprev2 h hc.head_mem]
    exact hc.headPrev
  · rw [nextAt, hn2a]
    rfl
  · rw [chainData_append, chainData_congr hdata2, chainData_cons hn2a]
    rfl

theorem push_back_correct {l : GhostLinkedList T} {m : List T} (v : T)
    (hr : Represents l m) : Represents (l.push_back v) (m ++ [v]) := by
  unfold Represents at hr
  cases hht : l.head_tail with
  | none =>
    rw [hht] at hr
    subst hr
    have hres : l.push_back v =
        ⟨l.store ++ [⟨v, none, none⟩], some (l.store.length, l.store.length)⟩ := by
      unfold GhostLinkedList.push_back GhostLinkedList.new_halves
      rw [hht]
    rw [hres]
    refine represents_some rfl (c := [l.store.length]) ?_ ?_
    · refine ⟨by simp, rfl, rfl, by simp, ?_, trivial, ?_, ?_⟩
      · intro x hx
        simp at hx
        subst hx
        simp
      · rw [prevAt, nodeAt_append_len]
        rfl
      · rw [nextAt, nodeAt_append_len]
        rfl
    · rw [chainData_cons (nodeAt_append_len _)]
      rfl
  | some p =>
    obtain ⟨h, t⟩ := p
    rw [hht] at hr
    obtain ⟨c, hc, rfl⟩ := hr
    have htlt : t < l.store.length := hc.valid t hc.last_mem
    obtain ⟨tn, htn⟩ := nodeAt_isSome htlt
    have hta : t ≠ l.store.length := Nat.ne_of_lt htlt
    have hn0t : nodeAt (l.store ++ [(⟨v, none, none⟩ : Node T)]) t = some tn :=
      (nodeAt_append_lt _ htlt).trans htn
    have hn1a : nodeAt ((l.store ++ [(⟨v, none, none⟩ : Node T)]).set t
        ⟨tn.data, tn.prev, some l.store.length⟩) l.store.length =
        some ⟨v, none, none⟩ := by
      rw [nodeAt_set_ne _ hta]
      exact nodeAt_append_len _
    have hres : l.push_back v =
        ⟨((l.store ++ [(⟨v, none, none⟩ : Node T)]).set t
            ⟨tn.data, tn.prev, some l.store.length⟩).set
            l.store.length ⟨v, some t, none⟩,
          some (h, l.store.length)⟩ := by
      unfold GhostLinkedList.push_back GhostLinkedList.new_halves
      rw [hht]
      simp only []
      rw [modifyNode_eq_set _ hn0t, modifyNode_eq_set _ hn1a]
    rw [hres]
    have hlen : (((l.store ++ [(⟨v, none, none⟩ : Node T)]).set t
        ⟨tn.data, tn.prev, some l.store.length⟩).set l.store.length
        ⟨v, some t, none⟩).length = l.store.length + 1 := by
      simp
    have h2a : nodeAt (((l.store ++ [(⟨v, none, none⟩ : Node T)]).set t
        ⟨tn.data, tn.prev, some l.store.length⟩).set l.store.length ⟨v, some t, none⟩)
        l.store.length = some ⟨v, some t, none⟩ := by
      refine nodeAt_set_self _ ?_
      simp
    have h2t : nodeAt (((l.store ++ [(⟨v, none, none⟩ : Node T)]).set t
        ⟨tn.data, tn.prev, some l.store.length⟩).set l.store.length ⟨v, some t, none⟩) t =
        some ⟨tn.data, tn.prev, some l.store.length⟩ := by
      rw [nodeAt_set_ne _ (Ne.symm hta)]
      refine (nodeAt_set_self _ ?_).trans ?_
      · simpa using Nat.lt_succ_of_lt htlt
      · rfl
    have hoth : ∀ x, x ≠ l.store.length → x ≠ t →
        nodeAt (((l.store ++ [(⟨v, none, none⟩ : Node T)]).set t
          ⟨tn.data, tn.prev, some l.store.length⟩).set l.store.length ⟨v, some t, none⟩) x =
        nodeAt l.store x := by
      intro x hxa hxt
      rw [nodeAt_set_ne _ (Ne.symm hxa), nodeAt_set_ne _ (Ne.symm hxt)]
      exact nodeAt_append_ne _ hxa
    have hext := chain_extend_back hc htn rfl hlen h2a h2t hoth
    exact represents_some rfl hext.1 hext.2.symm

/-- Chain surgery for `pop_front` on a list of two or more nodes: the old
head `h` leaves the chain; its neighbour `b` (whose `prev` is cleared)
becomes the new head. -/
theorem chain_shrink_front {s s2 : Store T} {c'' : List Nat} {h b t : Nat} {bn : Node T}
    (hc : ChainInv s (h :: b :: c'') h t)
    (hbn : nodeAt s b = some bn)
    (hlen2 : s2.length = s.length)
    (hn2b : nodeAt s2 b = some ⟨bn.data, none, bn.next⟩)
    (hother : ∀ x, x ≠ h → x ≠ b → nodeAt s2 x = nodeAt s x) :
    ChainInv s2 (b :: c'') b t ∧
      chainData s2 (b :: c'') = chainData s (b :: c'') := by
  have hnd' : (b :: c'').Nodup := (List.nodup_cons.mp hc.nodup).2
  have hh_not : h ∉ b :: c'' := (List.nodup_cons.mp hc.nodup).1
  have hdata2 : ∀ x ∈ b :: c'', dataAt s2 x = dataAt s x := by
    intro x hx
    by_cases hxb : x = b
    · subst hxb
      simp [dataAt, hn2b, hbn]
    · rw [dataAt, hother x (fun he => hh_not (he ▸ hx)) hxb, dataAt]
  have hnext2 : ∀ x ∈ b :: c'', nextAt s2 x = nextAt s x := by
    intro x hx
    by_cases hxb : x = b
    · subst hxb
      simp [nextAt, hn2b, hbn]
    · rw [nextAt, hother x (fun he => hh_not (he ▸ hx)) hxb, nextAt]
  have hprev2 : ∀ x ∈ c'', prevAt s2 x = prevAt s x := by
    intro x hx
    have hxb : x ≠ b := by
      intro he
      subst he
      exact (List.nodup_cons.mp hnd').1 hx
    have hxh : x ≠ h := fun he => hh_not (he ▸ List.mem_cons_of_mem _ hx)
    rw [prevAt, hother x hxh hxb, prevAt]
  have hlast' : (b :: c'').getLast? = some t := by
    have := hc.lastEq
    rw [List.getLast?_cons_cons] at this
    exact this
  refine ⟨⟨by simp, rfl, hlast', hnd', ?_, ?_, ?_, ?_⟩, chainData_congr hdata2⟩
  · intro x hx
    rw [hlen2]
    exact hc.valid x (List.mem_cons_of_mem _ hx)
  · refine Linked_congr ?_ hprev2 hc.linked.2.2
    intro x hx
    exact hnext2 x (List.dropLast_subset _ hx)
  · rw [prevAt, hn2b]
    rfl
  · rw [hnext2 t (List.mem_of_mem_getLast? hlast')]
    exact hc.tailNext

theorem pop_front_correct {l : GhostLinkedList T} {m : List T}
    (hr : Represents l m) :
    ∃ l2, l.pop_front = some (m.head?, l2) ∧ Represents l2 m.tail := by
  unfold Represents at hr
  cases hht : l.head_tail with
  | none =>
    rw [hht] at hr
    subst hr
    refine ⟨⟨l.store, none⟩, ?_, represents_none rfl⟩
    simp [GhostLinkedList.pop_front, hht]
  | some p =>
    obtain ⟨h, t⟩ := p
    rw [hht] at hr
    obtain ⟨c, hc, rfl⟩ := hr
    by_cases hhe : h = t
    · obtain rfl : c = [h] := (hc.single_iff).mp hhe
      have hhlt : h < l.store.length := hc.valid h (by simp)
      obtain ⟨hn, hhn⟩ := nodeAt_isSome hhlt
      have hprev : hn.prev = none := by
        have := hc.headPrev
        rw [prevAt, hhn] at this
        simpa using this
      have hnext : hn.next = none := by
        have := hc.tailNext
        rw [← hhe, nextAt, hhn] at this
        simpa using this
      refine ⟨⟨l.store, none⟩, ?_, ?_⟩
      · rw [chainData_cons hhn]
        simp only [GhostLinkedList.pop_front, hht, if_pos hhe,
          GhostLinkedList.node_into_inner, hhn, hprev, hnext]
        simp
      · rw [chainData_cons hhn]
        exact represents_none rfl
    · obtain ⟨c', rfl⟩ := hc.cons_decomp
      cases hc' : c' with
      | nil =>
        exfalso
        exact hhe ((hc.single_iff).mpr (by rw [hc']))
      | cons b c'' =>
        subst hc'
        have hhlt : h < l.store.length := hc.valid h (by simp)
        have hblt : b < l.store.length := hc.valid b (by simp)
        obtain ⟨hn, hhn⟩ := nodeAt_isSome hhlt
        obtain ⟨bn, hbn⟩ := nodeAt_isSome hblt
        have hhb : h ≠ b := by
          intro he
          exact (List.nodup_cons.mp hc.nodup).1 (he ▸ List.mem_cons_self b c'')
        have hnext : hn.next = some b := by
          have := hc.linked.1
          rw [nextAt, hhn] at this
          simpa using this
        have hbprev : bn.prev = some h := by
          have := hc.linked.2.1
          rw [prevAt, hbn] at this
          simpa using this
        have hhprev : hn.prev = none := by
          have := hc.headPrev
          rw [prevAt, hhn] at this
          simpa using this
        have hn1b : nodeAt (l.store.set h ⟨hn.data, hn.prev, none⟩) b = some bn := by
          rw [nodeAt_set_ne _ hhb]
          exact hbn
        have hn2h : nodeAt ((l.store.set h ⟨hn.data, hn.prev, none⟩).set b
            ⟨bn.data, none, bn.next⟩) h = some ⟨hn.data, hn.prev, none⟩ := by
          rw [nodeAt_set_ne _ (Ne.symm hhb)]
          exact nodeAt_set_self _ hhlt
        have hres : l.pop_front = some (some hn.data,
            ⟨(l.store.set h ⟨hn.data, hn.prev, none⟩).set b ⟨bn.data, none, bn.next⟩,
              some (b, t)⟩) := by
          simp only [GhostLinkedList.pop_front, hht, if_neg hhe, hhn, hnext, hn1b, hbprev,
            GhostLinkedList.node_into_inner, hn2h]
          simp [hhprev]
        have hlen : ((l.store.set h ⟨hn.data, hn.prev, none⟩).set b
            ⟨bn.data, none, bn.next⟩).length = l.store.length := by
          simp
        have h2b : nodeAt ((l.store.set h ⟨hn.data, hn.prev, none⟩).set b
            ⟨bn.data, none, bn.next⟩) b = some ⟨bn.data, none, bn.next⟩ := by
          refine (nodeAt_set_self _ ?_).trans rfl
          simpa using hblt
        have hoth : ∀ x, x ≠ h → x ≠ b →
            nodeAt ((l.store.set h ⟨hn.data, hn.prev, none⟩).set b
              ⟨bn.data, none, bn.next⟩) x = nodeAt l.store x := by
          intro x hxh hxb
          rw [nodeAt_set_ne _ (Ne.symm hxb), nodeAt_set_ne _ (Ne.symm hxh)]
        have hshr := chain_shrink_front hc hbn hlen h2b hoth
        refine ⟨⟨(l.store.set h ⟨hn.data, hn.prev, none⟩).set b ⟨bn.data, none, bn.next⟩,
          some (b, t)⟩, ?_, ?_⟩
        · rw [hres, chainData_cons hhn]
          rfl
        · rw [chainData_cons hhn]
          exact represents_some rfl hshr.1 hshr.2.symm

/-- Chain surgery for `pop_back` on a list of two or more nodes: the old
tail `t` leaves the chain; its neighbour `p` (whose `next` is cleared)
becomes the new tail. -/
theorem chain_shrink_back {s s2 : Store T} {d : List Nat} {h p t : Nat} {pn : Node T}
    (hc : ChainInv s (d ++ [t]) h t)
    (hdne : d ≠ [])
    (hdlast : d.getLast? = some p)
    (hpn : nodeAt s p = some pn)
    (hlen2 : s2.length = s.length)
    (hn2p : nodeAt s2 p = some ⟨pn.data, pn.prev, none⟩)
    (hother : ∀ x, x ≠ t → x ≠ p → nodeAt s2 x = nodeAt s x) :
    ChainInv s2 d h p ∧ chainData s2 d = chainData s d := by
  have hndd : d.Nodup := hc.nodup.of_append_left
  have ht_not : t ∉ d := fun hmem =>
    List.disjoint_of_nodup_append hc.nodup hmem (by simp)
  have hdata2 : ∀ x ∈ d, dataAt s2 x = dataAt s x := by
    intro x hx
    by_cases hxp : x = p
    · subst hxp
      simp [dataAt, hn2p, hpn]
    · rw [dataAt, hother x (fun he => ht_not (he ▸ hx)) hxp, dataAt]
  have hprev2 : ∀ x ∈ d, prevAt s2 x = prevAt s x := by
    intro x hx
    by_cases hxp : x = p
    · subst hxp
      simp [prevAt, hn2p, hpn]
    · rw [prevAt, hother x (fun he => ht_not (he ▸ hx)) hxp, prevAt]
  have hnext2 : ∀ x ∈ d.dropLast, nextAt s2 x = nextAt s x := by
    intro x hx
    have hxp : x ≠ p := by
      intro he
      subst he
      exact not_mem_dropLast_of_getLast? hndd hdlast hx
    have hxd : x ∈ d := List.dropLast_subset _ hx
    rw [nextAt, hother x (fun he => ht_not (he ▸ hxd)) hxp, nextAt]
  have hheadEq : d.head? = some h := by
    cases d with
    | nil => exact absurd rfl hdne
    | cons x d' =>
      have := hc.headEq
      simpa using this
  refine ⟨⟨hdne, hheadEq, hdlast, hndd, ?_, ?_, ?_, ?_⟩, chainData_congr hdata2⟩
  · intro x hx
    rw [hlen2]
    exact hc.valid x (List.mem_append.mpr (Or.inl hx))
  · exact Linked_congr hnext2 (fun x hx => hprev2 x (List.tail_subset _ hx))
      (Linked_of_concat hc.linked)
  · rw [hprev2 h (List.mem_of_mem_head? hheadEq)]
    exact hc.headPrev
  · rw [nextAt, hn2p]
    rfl

theorem pop_back_correct {l : GhostLinkedList T} {m : List T}
    (hr : Represents l m) :
    ∃ l2, l.pop_back = some (m.getLast?, l2) ∧ Represents l2 m.dropLast := by
  unfold Represents at hr
  cases hht : l.head_tail with
  | none =>
    rw [hht] at hr
    subst hr
    refine ⟨⟨l.store, none⟩, ?_, represents_none rfl⟩
    simp [GhostLinkedList.pop_back, hht]
  | some pq =>
    obtain ⟨h, t⟩ := pq
    rw [hht] at hr
    obtain ⟨c, hc, rfl⟩ := hr
    by_cases hhe : h = t
    · obtain rfl : c = [h] := (hc.single_iff).mp hhe
      have hhlt : h < l.store.length := hc.valid h (by simp)
      obtain ⟨hn, hhn⟩ := nodeAt_isSome hhlt
      have hprev : hn.prev = none := by
        have := hc.headPrev
        rw [prevAt, hhn] at this
        simpa using this
      have hnext : hn.next = none := by
        have := hc.tailNext
        rw [← hhe, nextAt, hhn] at this
        simpa using this
      refine ⟨⟨l.store, none⟩, ?_, ?_⟩
      · rw [chainData_cons hhn]
        simp only [GhostLinkedList.pop_back, hht, if_pos hhe,
          GhostLinkedList.node_into_inner, hhn, hprev, hnext]
        simp [chainData]
      · rw [chainData_cons hhn]
        exact represents_none rfl
    · have hcd : c = c.dropLast ++ [t] := hc.concat_decomp
      rw [hcd] at hc
      have hdne : c.dropLast ≠ [] := by
        intro he
        rw [he] at hc
        have := hc.headEq
        simp at this
        exact hhe this.symm
      obtain ⟨p, hdlast⟩ : ∃ p, (c.dropLast).getLast? = some p := by
        cases hq : (c.dropLast).getLast? with
        | none => exact absurd (List.getLast?_isSome.mpr hdne) (by rw [hq]; simp)
        | some q => exact ⟨q, rfl⟩
      have hconc := Linked_concat_last hc.linked hdlast
      have htlt : t < l.store.length := hc.valid t (by simp)
      have hplt : p < l.store.length :=
        hc.valid p (List.mem_append.mpr (Or.inl (List.mem_of_mem_getLast? hdlast)))
      obtain ⟨tn, htn⟩ := nodeAt_isSome htlt
      obtain ⟨pn, hpn⟩ := nodeAt_isSome hplt
      have hpt : p ≠ t := by
        intro he
        exact (fun hmem => List.disjoint_of_nodup_append hc.nodup hmem (by simp))
          (he ▸ List.mem_of_mem_getLast? hdlast)
      have htprev : tn.prev = some p := by
        have := hconc.2
        rw [prevAt, htn] at this
        simpa using this
      have hpnext : pn.next = some t := by
        have := hconc.1
        rw [nextAt, hpn] at this
        simpa using this
      have htnext : tn.next = none := by
        have := hc.tailNext
        rw [nextAt, htn] at this
        simpa using this
      have hn1p : nodeAt (l.store.set t ⟨tn.data, none, tn.next⟩) p = some pn := by
        rw [nodeAt_set_ne _ (Ne.symm hpt)]
        exact hpn
      have hn2t : nodeAt ((l.store.set t ⟨tn.data, none, tn.next⟩).set p
          ⟨pn.data, pn.prev, none⟩) t = some ⟨tn.data, none, tn.next⟩ := by
        rw [nodeAt_set_ne _ hpt]
        exact nodeAt_set_self _ htlt
      have hres : l.pop_back = some (some tn.data,
          ⟨(l.store.set t ⟨tn.data, none, tn.next⟩).set p ⟨pn.data, pn.prev, none⟩,
            some (h, p)⟩) := by
        simp only [GhostLinkedList.pop_back, hht, if_neg hhe, htn, htprev, hn1p, hpnext,
          GhostLinkedList.node_into_inner, hn2t]
        simp [htnext]
      have hlen : ((l.store.set t ⟨tn.data, none, tn.next⟩).set p
          ⟨pn.data, pn.prev, none⟩).length = l.store.length := by
        simp
      have h2p : nodeAt ((l.store.set t ⟨tn.data, none, tn.next⟩).set p
          ⟨pn.data, pn.prev, none⟩) p = some ⟨pn.data, pn.prev, none⟩ := by
        refine (nodeAt_set_self _ ?_).trans rfl
        simpa using hplt
      have hoth : ∀ x, x ≠ t → x ≠ p →
          nodeAt ((l.store.set t ⟨tn.data, none, tn.next⟩).set p
            ⟨pn.data, pn.prev, none⟩) x = nodeAt l.store x := by
        intro x hxt hxp
        rw [nodeAt_set_ne _ (Ne.symm hxp), nodeAt_set_ne _ (Ne.symm hxt)]
      have hshr := chain_shrink_back hc hdne hdlast hpn hlen h2p hoth
      have hmt : chainData l.store [t] = [tn.data] := by
        rw [chainData_cons htn]
        rfl
      refine ⟨⟨(l.store.set t ⟨tn.data, none, tn.next⟩).set p ⟨pn.data, pn.prev, none⟩,
        some (h, p)⟩, ?_, ?_⟩
      · rw [hres]
        rw [hcd, chainData_append, hmt, List.getLast?_concat]
      · rw [hcd, chainData_append, hmt, List.dropLast_concat]
        exact represents_some rfl hshr.1 hshr.2.symm

/-!
Whole-sequence refinement.
-/

theorem modelRun_popF (ops : List (Op T)) (m : List T) :
    modelRun (Op.popF :: ops) m =
      (m.head? :: (modelRun ops m.tail).1, (modelRun ops m.tail).2) := by
  cases m <;> simp [modelRun]

theorem modelRun_popB (ops : List (Op T)) (m : List T) :
    modelRun (Op.popB :: ops) m =
      (m.getLast? :: (modelRun ops m.dropLast).1, (modelRun ops m.dropLast).2) := by
  cases hm : m.getLast? with
  | none =>
    have : m = [] := List.getLast?_eq_none_iff.mp hm
    subst this
    simp [modelRun]
  | some x =>
    simp [modelRun, hm]

theorem runOps_correct {l : GhostLinkedList T} {m : List T} (ops : List (Op T))
    (hr : Represents l m) :
    ∃ l2, runOps ops l = some ((modelRun ops m).1, l2) ∧
      Represents l2 (modelRun ops m).2 := by
  induction ops generalizing l m with
  | nil => exact ⟨l, rfl, hr⟩
  | cons op rest ih =>
    cases op with
    | pushF v =>
      obtain ⟨l2, hrun, hrep⟩ := ih (push_front_correct v hr)
      exact ⟨l2, hrun, hrep⟩
    | pushB v =>
      obtain ⟨l2, hrun, hrep⟩ := ih (push_back_correct v hr)
      exact ⟨l2, hrun, hrep⟩
    | popF =>
      obtain ⟨l1, hpop, hrep1⟩ := pop_front_correct hr
      obtain ⟨l2, hrun, hrep2⟩ := ih hrep1
      refine ⟨l2, ?_, ?_⟩
      · rw [modelRun_popF]
        simp only [runOps, hpop, hrun]
        rfl
      · rw [modelRun_popF]
        exact hrep2
    | popB =>
      obtain ⟨l1, hpop, hrep1⟩ := pop_back_correct hr
      obtain ⟨l2, hrun, hrep2⟩ := ih hrep1
      refine ⟨l2, ?_, ?_⟩
      · rw [modelRun_popB]
        simp only [runOps, hpop, hrun]
        rfl
      · rw [modelRun_popB]
        exact hrep2

/-!
Observation lemmas.
-/

theorem front_represents {l : GhostLinkedList T} {m : List T}
    (hr : Represents l m) : l.front = m.head? := by
  unfold Represents at hr
  cases hht : l.head_tail with
  | none =>
    rw [hht] at hr
    subst hr
    simp [GhostLinkedList.front, hht]
  | some p =>
    obtain ⟨h, t⟩ := p
    rw [hht] at hr
    obtain ⟨c, hc, rfl⟩ := hr
    obtain ⟨c', rfl⟩ := hc.cons_decomp
    obtain ⟨hn, hhn⟩ := nodeAt_isSome (hc.valid h (by simp))
    rw [chainData_cons hhn]
    simp [GhostLinkedList.front, hht, dataAt, hhn]

theorem back_represents {l : GhostLinkedList T} {m : List T}
    (hr : Represents l m) : l.back = m.getLast? := by
  unfold Represents at hr
  cases hht : l.head_tail with
  | none =>
    rw [hht] at hr
    subst hr
    simp [GhostLinkedList.back, hht]
  | some p =>
    obtain ⟨h, t⟩ := p
    rw [hht] at hr
    obtain ⟨c, hc, rfl⟩ := hr
    obtain ⟨tn, htn⟩ := nodeAt_isSome (hc.valid t hc.last_mem)
    have hcd : c = c.dropLast ++ [t] := hc.concat_decomp
    rw [hcd, chainData_append, chainData_cons htn]
    show l.back = (chainData l.store c.dropLast ++ [tn.data]).getLast?
    rw [List.getLast?_concat]
    simp [GhostLinkedList.back, hht, dataAt, htn]

theorem represents_nil_head_tail {l : GhostLinkedList T}
    (hr : Represents l []) : l.head_tail = none := by
  unfold Represents at hr
  cases hht : l.head_tail with
  | none => rfl
  | some p =>
    obtain ⟨h, t⟩ := p
    rw [hht] at hr
    obtain ⟨c, hc, heq⟩ := hr
    have := chainData_length hc.valid
    rw [← heq] at this
    simp at this
    exact absurd (List.length_eq_zero.mp this.symm) hc.ne

/-- Overwriting only the `data` field of a chain node preserves the chain
invariant. -/
theorem ChainInv_set_data {s : Store T} {c : List Nat} {h t a : Nat} {n : Node T} {v : T}
    (hc : ChainInv s c h t) (hn : nodeAt s a = some n) (ha : a < s.length) :
    ChainInv (s.set a ⟨v, n.prev, n.next⟩) c h t := by
  have hprev : ∀ x, prevAt (s.set a ⟨v, n.prev, n.next⟩) x = prevAt s x := by
    intro x
    by_cases hxa : x = a
    · subst hxa
      rw [prevAt, nodeAt_set_self _ ha, prevAt, hn]
      rfl
    · rw [prevAt, nodeAt_set_ne _ (Ne.symm hxa), prevAt]
  have hnext : ∀ x, nextAt (s.set a ⟨v, n.prev, n.next⟩) x = nextAt s x := by
    intro x
    by_cases hxa : x = a
    · subst hxa
      rw [nextAt, nodeAt_set_self _ ha, nextAt, hn]
      rfl
    · rw [nextAt, nodeAt_set_ne _ (Ne.symm hxa), nextAt]
  refine ⟨hc.ne, hc.headEq, hc.lastEq, hc.nodup, ?_, ?_, ?_, ?_⟩
  · intro x hx
    rw [List.length_set]
    exact hc.valid x hx
  · exact Linked_congr (fun x _ => hnext x) (fun x _ => hprev x) hc.linked
  · rw [hprev h]
    exact hc.headPrev
  · rw [hnext t]
    exact hc.tailNext

/-- The structural fact behind the `expect` calls in `pop_front`/`pop_back`:
when head and tail are distinct, the head has a `next` whose `prev` points
back, and the tail has a `prev` whose `next` points forward. -/
def PopSafe (l : GhostLinkedList T) : Prop :=
  ∀ h t, l.head_tail = some (h, t) → h ≠ t →
    (∃ nx, nextAt l.store h = some (some nx) ∧ prevAt l.store nx = some (some h)) ∧
    (∃ pv, prevAt l.store t = some (some pv) ∧ nextAt l.store pv = some (some t))

theorem popSafe_of_represents {l : GhostLinkedList T} {m : List T}
    (hr : Represents l m) : PopSafe l := by
  intro h t hht hne
  unfold Represents at hr
  rw [hht] at hr
  obtain ⟨c, hc, _⟩ := hr
  constructor
  · obtain ⟨c', rfl⟩ := hc.cons_decomp
    cases hc' : c' with
    | nil =>
      exact absurd ((hc.single_iff).mpr (by rw [hc'])) hne
    | cons b c'' =>
      subst hc'
      exact ⟨b, hc.linked.1, hc.linked.2.1⟩
  · have hcd : c = c.dropLast ++ [t] := hc.concat_decomp
    rw [hcd] at hc
    have hdne : c.dropLast ≠ [] := by
      intro he
      rw [he] at hc
      have := hc.headEq
      simp at this
      exact hne this.symm
    obtain ⟨p, hdlast⟩ : ∃ p, (c.dropLast).getLast? = some p := by
      cases hq : (c.dropLast).getLast? with
      | none => exact absurd (List.getLast?_isSome.mpr hdne) (by rw [hq]; simp)
      | some q => exact ⟨q, rfl⟩
    have hconc := Linked_concat_last hc.linked hdlast
    exact ⟨p, hconc.2, hconc.1⟩

theorem front_mut_write_correct {l : GhostLinkedList T} {x : T} {m : List T} (v : T)
    (hr : Represents l (x :: m)) :
    ∃ l2, l.front_mut_write v = some l2 ∧ Represents l2 (v :: m) := by
  unfold Represents at hr
  cases hht : l.head_tail with
  | none =>
    rw [hht] at hr
    exact absurd hr (by simp)
  | some p =>
    obtain ⟨h, t⟩ := p
    rw [hht] at hr
    obtain ⟨c, hc, heq⟩ := hr
    obtain ⟨c', rfl⟩ := hc.cons_decomp
    have hhlt : h < l.store.length := hc.valid h (by simp)
    obtain ⟨hn, hhn⟩ := nodeAt_isSome hhlt
    have hxm : x :: m = hn.data :: chainData l.store c' := by
      rw [heq, chainData_cons hhn]
    have hm : m = chainData l.store c' := by
      injection hxm
    have hcd2 : chainData (l.store.set h ⟨v, hn.prev, hn.next⟩) c' =
        chainData l.store c' := by
      refine chainData_congr ?_
      intro a ha
      have hah : a ≠ h := by
        intro he
        subst he
        exact (List.nodup_cons.mp hc.nodup).1 ha
      rw [dataAt, nodeAt_set_ne _ (Ne.symm hah), dataAt]
    refine ⟨⟨l.store.set h ⟨v, hn.prev, hn.next⟩, some (h, t)⟩, ?_, ?_⟩
    · unfold GhostLinkedList.front_mut_write
      rw [hht]
      simp only [Option.map_some']
      rw [modifyNode_eq_set _ hhn]
    · refine represents_some rfl (ChainInv_set_data hc hhn hhlt) ?_
      rw [chainData_cons (nodeAt_set_self (⟨v, hn.prev, hn.next⟩ : Node T) hhlt)]
      rw [hcd2, hm]

theorem back_mut_write_correct {l : GhostLinkedList T} {y : T} {m : List T} (v : T)
    (hr : Represents l (m ++ [y])) :
    ∃ l2, l.back_mut_write v = some l2 ∧ Represents l2 (m ++ [v]) := by
  unfold Represents at hr
  cases hht : l.head_tail with
  | none =>
    rw [hht] at hr
    exact absurd hr (by simp)
  | some p =>
    obtain ⟨h, t⟩ := p
    rw [hht] at hr
    obtain ⟨c, hc, heq⟩ := hr
    have htlt : t < l.store.length := hc.valid t hc.last_mem
    obtain ⟨tn, htn⟩ := nodeAt_isSome htlt
    have hcd : c = c.dropLast ++ [t] := hc.concat_decomp
    have hsplit : chainData l.store c = chainData l.store c.dropLast ++ [tn.data] := by
      conv_lhs => rw [hcd]
      rw [chainData_append, chainData_cons htn]
      rfl
    have hm : m = chainData l.store c.dropLast := by
      have := congrArg List.dropLast (heq.trans hsplit)
      rwa [List.dropLast_concat, List.dropLast_concat] at this
    have ht_not : t ∉ c.dropLast := by
      intro hmem
      have hnd := hc.nodup
      rw [hcd] at hnd
      exact List.disjoint_of_nodup_append hnd hmem (by simp)
    have hcd2 : chainData (l.store.set t ⟨v, tn.prev, tn.next⟩) c.dropLast =
        chainData l.store c.dropLast := by
      refine chainData_congr ?_
      intro a ha
      have hat : a ≠ t := fun he => ht_not (he ▸ ha)
      rw [dataAt, nodeAt_set_ne _ (Ne.symm hat), dataAt]
    refine ⟨⟨l.store.set t ⟨v, tn.prev, tn.next⟩, some (h, t)⟩, ?_, ?_⟩
    · unfold GhostLinkedList.back_mut_write
      rw [hht]
      simp only [Option.map_some']
      rw [modifyNode_eq_set _ htn]
    · refine represents_some rfl (ChainInv_set_data hc htn htlt) ?_
      show m ++ [v] = chainData (l.store.set t ⟨v, tn.prev, tn.next⟩) c
      conv_rhs => rw [hcd]
      rw [chainData_append,
        chainData_cons (nodeAt_set_self (⟨v, tn.prev, tn.next⟩ : Node T) htlt)]
      rw [hcd2, hm]
      rfl

/-!
Model-level round-trip lemmas.
-/

theorem modelRun_pushB_list (vs : List T) (ops : List (Op T)) (m : List T) :
    modelRun (vs.map Op.pushB ++ ops) m = modelRun ops (m ++ vs) := by
  induction vs generalizing m with
  | nil => simp
  | cons v rest ih =>
    show modelRun (Op.pushB v :: (rest.map Op.pushB ++ ops)) m = _
    rw [modelRun, ih]
    simp

theorem modelRun_pushF_list (vs : List T) (ops : List (Op T)) (m : List T) :
    modelRun (vs.map Op.pushF ++ ops) m = modelRun ops (vs.reverse ++ m) := by
  induction vs generalizing m with
  | nil => simp
  | cons v rest ih =>
    show modelRun (Op.pushF v :: (rest.map Op.pushF ++ ops)) m = _
    rw [modelRun, ih]
    simp

theorem modelRun_popF_all (m : List T) :
    modelRun (List.replicate m.length Op.popF) m = (m.map some, []) := by
  induction m with
  | nil => simp [modelRun]
  | cons x xs ih =>
    show modelRun (Op.popF :: List.replicate xs.length Op.popF) (x :: xs) = _
    rw [modelRun_popF]
    simp [ih]

/-!
Concrete states used by the witnesses.
-/

theorem represents_single_example :
    Represents (⟨[⟨5, none, none⟩], some (0, 0)⟩ : GhostLinkedList Nat) [5] := by
  show ∃ c, ChainInv [⟨5, none, none⟩] c 0 0 ∧ [5] = chainData [⟨5, none, none⟩] c
  exact ⟨[0], ⟨by decide, rfl, rfl, by decide, by decide, trivial, by decide, by decide⟩,
    by decide⟩

theorem represents_pair_example :
    Represents (⟨[⟨1, none, some 1⟩, ⟨2, some 0, none⟩], some (0, 1)⟩ :
      GhostLinkedList Nat) [1, 2] := by
  show ∃ c, ChainInv [⟨1, none, some 1⟩, ⟨2, some 0, none⟩] c 0 1 ∧
    [1, 2] = chainData [⟨1, none, some 1⟩, ⟨2, some 0, none⟩] c
  exact ⟨[0, 1], ⟨by decide, rfl, rfl, by decide, by decide,
    ⟨by decide, by decide, trivial⟩, by decide, by decide⟩, by decide⟩

/-!
The claims.
-/

/-- C1: starting from the empty list, every finite sequence of
`push_front`/`push_back`/`pop_front`/`pop_back` behaves exactly like the
reference deque model — every pop returns the element the model returns
(`none` on empty), and afterwards `len` equals the model's length. -/
theorem refines_deque_model (T : Type) (ops : List (Op T)) :
    ∃ l2, runOps ops (GhostLinkedList.new : GhostLinkedList T) =
        some ((modelRun ops []).1, l2) ∧
      l2.len = (modelRun ops []).2.length := by
  obtain ⟨l2, hrun, hrep⟩ := runOps_correct ops represents_new
  exact ⟨l2, hrun, len_represent hrep⟩

/-- C2 (counterexample): on the list `[1, 2]`, the call sequence `next`,
`next_back`, `next` on one iterator yields `1`, `2`, `2` — the element `2` is
yielded twice, because `next` terminates on the list's real tail
(`node.next == None`), not when the two cursors converge. -/
theorem iterator_interleave_duplicate :
    GhostLinkedListIterator.next
        (((GhostLinkedList.new : GhostLinkedList Nat).push_back 1).push_back 2).iter =
      some (some 1, ⟨[⟨1, none, some 1⟩, ⟨2, some 0, none⟩], some (1, 1)⟩) ∧
    GhostLinkedListIterator.next_back
        (⟨[⟨1, none, some 1⟩, ⟨2, some 0, none⟩], some (1, 1)⟩ :
          GhostLinkedListIterator Nat) =
      some (some 2, ⟨[⟨1, none, some 1⟩, ⟨2, some 0, none⟩], some (1, 0)⟩) ∧
    GhostLinkedListIterator.next
        (⟨[⟨1, none, some 1⟩, ⟨2, some 0, none⟩], some (1, 0)⟩ :
          GhostLinkedListIterator Nat) =
      some (some 2, ⟨[⟨1, none, some 1⟩, ⟨2, some 0, none⟩], none⟩) := by
  decide

/-- C3: from the empty list, no sequence of public operations can reach a
state where `pop_front`/`pop_back` hit their fatal `expect` branches: the run
never aborts, and whenever head and tail are distinct the head's `next` edge
and its neighbour's `prev` edge are present (symmetrically at the tail). -/
theorem pop_expect_branches_unreachable (T : Type) (ops : List (Op T)) :
    ∃ r l2, runOps ops (GhostLinkedList.new : GhostLinkedList T) = some (r, l2) ∧
      PopSafe l2 ∧ l2.pop_front ≠ none ∧ l2.pop_back ≠ none := by
  obtain ⟨l2, hrun, hrep⟩ := runOps_correct ops represents_new
  refine ⟨_, l2, hrun, popSafe_of_represents hrep, ?_, ?_⟩
  · obtain ⟨l3, hp, _⟩ := pop_front_correct hrep
    simp [hp]
  · obtain ⟨l3, hp, _⟩ := pop_back_correct hrep
    simp [hp]

/-- C4: on a one-element list, `front` and `back` return the same element, the
head and tail pointers are address-equal (so the pop operations detect the
case before any neighbour lookup), and popping from either end returns that
element and leaves the list empty. -/
theorem single_element_front_back_pop {l : GhostLinkedList T} {v : T}
    (hr : Represents l [v]) :
    l.front = some v ∧ l.back = some v ∧
    (∀ h t, l.head_tail = some (h, t) → h = t) ∧
    (∃ l2, l.pop_front = some (some v, l2) ∧ l2.is_empty = true) ∧
    (∃ l3, l.pop_back = some (some v, l3) ∧ l3.is_empty = true) := by
  refine ⟨front_represents hr, back_represents hr, ?_, ?_, ?_⟩
  · intro h t hht
    have hr2 := hr
    unfold Represents at hr2
    rw [hht] at hr2
    obtain ⟨c, hc, heq⟩ := hr2
    have hlen : c.length = 1 := by
      have := chainData_length hc.valid
      rw [← heq] at this
      simpa using this.symm
    obtain ⟨x, rfl⟩ := List.length_eq_one.mp hlen
    have hx1 := hc.headEq
    have hx2 := hc.lastEq
    simp at hx1 hx2
    rw [← hx1, ← hx2]
  · obtain ⟨l2, hp, hrep⟩ := pop_front_correct hr
    refine ⟨l2, hp, ?_⟩
    rw [GhostLinkedList.is_empty, represents_nil_head_tail hrep]
    rfl
  · obtain ⟨l3, hp, hrep⟩ := pop_back_correct hr
    refine ⟨l3, hp, ?_⟩
    rw [GhostLinkedList.is_empty, represents_nil_head_tail hrep]
    rfl

/-- Witness for C4 at a concrete one-element list holding `5`. -/
theorem single_element_front_back_pop_witness :
    (⟨[⟨5, none, none⟩], some (0, 0)⟩ : GhostLinkedList Nat).front = some 5 ∧
    (⟨[⟨5, none, none⟩], some (0, 0)⟩ : GhostLinkedList Nat).back = some 5 ∧
    (∃ l2, (⟨[⟨5, none, none⟩], some (0, 0)⟩ : GhostLinkedList Nat).pop_front =
      some (some 5, l2) ∧ l2.is_empty = true) := by
  have h := single_element_front_back_pop represents_single_example
  exact ⟨h.1, h.2.1, h.2.2.2.1⟩

/-- C5: pushing the values of `vs` with `push_back` and then popping
`vs.length` times with `pop_front` returns them in insertion order; pushing
with `push_front` instead returns them in reverse insertion order; both runs
end with an empty list. -/
theorem round_trip_push_pop (T : Type) (vs : List T) :
    (∃ l2, runOps (vs.map Op.pushB ++ List.replicate vs.length Op.popF)
        (GhostLinkedList.new : GhostLinkedList T) = some (vs.map some, l2) ∧
      l2.is_empty = true) ∧
    (∃ l3, runOps (vs.map Op.pushF ++ List.replicate vs.length Op.popF)
        (GhostLinkedList.new : GhostLinkedList T) = some (vs.reverse.map some, l3) ∧
      l3.is_empty = true) := by
  constructor
  · obtain ⟨l2, hrun, hrep⟩ :=
      runOps_correct (vs.map Op.pushB ++ List.replicate vs.length Op.popF) represents_new
    have hmodel : modelRun (vs.map Op.pushB ++ List.replicate vs.length Op.popF)
        ([] : List T) = (vs.map some, []) := by
      rw [modelRun_pushB_list]
      simpa using modelRun_popF_all vs
    rw [hmodel] at hrun hrep
    refine ⟨l2, hrun, ?_⟩
    rw [GhostLinkedList.is_empty, represents_nil_head_tail hrep]
    rfl
  · obtain ⟨l3, hrun, hrep⟩ :=
      runOps_correct (vs.map Op.pushF ++ List.replicate vs.length Op.popF) represents_new
    have hmodel : modelRun (vs.map Op.pushF ++ List.replicate vs.length Op.popF)
        ([] : List T) = (vs.reverse.map some, []) := by
      rw [modelRun_pushF_list, List.append_nil,
        show vs.length = vs.reverse.length by simp]
      exact modelRun_popF_all vs.reverse
    rw [hmodel] at hrun hrep
    refine ⟨l3, hrun, ?_⟩
    rw [GhostLinkedList.is_empty, represents_nil_head_tail hrep]
    rfl

/-- C6: a full forward traversal with `next` on a fresh iterator and a full
backward traversal with `next_back` on another fresh iterator over the same
list yield exactly reversed sequences (and both terminate). -/
theorem forward_backward_traversals_reverse {l : GhostLinkedList T} {m : List T}
    (hr : Represents l m) :
    l.iterFwdList = some m ∧ l.iterBwdList = some m.reverse :=
  ⟨iterFwdList_represent hr, iterBwdList_represent hr⟩

/-- Witness for C6 at the concrete list `[1, 2]`. -/
theorem forward_backward_traversals_reverse_witness :
    (⟨[⟨1, none, some 1⟩, ⟨2, some 0, none⟩], some (0, 1)⟩ :
        GhostLinkedList Nat).iterFwdList = some [1, 2] ∧
    (⟨[⟨1, none, some 1⟩, ⟨2, some 0, none⟩], some (0, 1)⟩ :
        GhostLinkedList Nat).iterBwdList = some [2, 1] :=
  forward_backward_traversals_reverse represents_pair_example

/-- C7: on an empty list, `pop_front`, `pop_back`, `front`, `back`,
`front_mut` and `back_mut` all report absence (the empty indicator), no call
changes the list state, and nothing aborts. -/
theorem empty_list_operations {l : GhostLinkedList T} (v : T)
    (hht : l.head_tail = none) :
    l.pop_front = some (none, l) ∧ l.pop_back = some (none, l) ∧
    l.front = none ∧ l.back = none ∧
    l.front_mut_write v = none ∧ l.back_mut_write v = none ∧
    l.is_empty = true := by
  obtain ⟨s, ht⟩ := l
  simp only at hht
  subst hht
  exact ⟨rfl, rfl, rfl, rfl, rfl, rfl, rfl⟩

/-- Witness for C7 at the empty list. -/
theorem empty_list_operations_witness :
    (GhostLinkedList.new : GhostLinkedList Nat).pop_front =
        some (none, GhostLinkedList.new) ∧
    (GhostLinkedList.new : GhostLinkedList Nat).front = none := by
  have h := empty_list_operations (l := (GhostLinkedList.new : GhostLinkedList Nat)) 0 rfl
  exact ⟨h.1, h.2.2.1⟩

/-- C8: for every state reachable from the empty list by public operations,
the full forward traversal terminates (no cycle, no premature stop, no
invalid read) and visits exactly `len` nodes. -/
theorem traversal_terminates_visits_len (T : Type) (ops : List (Op T)) :
    ∃ r l2 m, runOps ops (GhostLinkedList.new : GhostLinkedList T) = some (r, l2) ∧
      l2.iterFwdList = some m ∧ m.length = l2.len := by
  obtain ⟨l2, hrun, hrep⟩ := runOps_correct ops represents_new
  refine ⟨_, l2, _, hrun, iterFwdList_represent hrep, ?_⟩
  rw [len_represent hrep]

/-- C9: `GhostCell::new(v).into_inner()` returns `v` unchanged with no token,
and `borrow`/`borrow_mut` succeed unconditionally for every cell and every
token (total functions, no failure path) and return the stored value; a value
written through `borrow_mut` is the value subsequently read. -/
theorem ghost_cell_contract (T : Type) (v w : T) (c : GhostCell T)
    (tok tok2 : GhostToken) :
    (GhostCell.new v).into_inner = v ∧
    (GhostCell.new v).borrow tok = v ∧
    c.borrow tok = c.value ∧
    c.borrow_mut tok = c.value ∧
    (c.write tok w).borrow tok2 = w :=
  ⟨rfl, rfl, rfl, rfl, rfl⟩

/-- C10: overwriting the first element through `front_mut` changes only that
element — `front` then returns the new value, the length is unchanged, and
the remaining elements keep their values and order; symmetrically for
`back_mut` and the last element. -/
theorem mut_overwrite_frame (T : Type) (v : T) :
    (∀ (l : GhostLinkedList T) (x : T) (m : List T), Represents l (x :: m) →
      ∃ l2, l.front_mut_write v = some l2 ∧ Represents l2 (v :: m) ∧
        l2.front = some v ∧ l2.len = m.length + 1) ∧
    (∀ (l : GhostLinkedList T) (y : T) (m : List T), Represents l (m ++ [y]) →
      ∃ l2, l.back_mut_write v = some l2 ∧ Represents l2 (m ++ [v]) ∧
        l2.back = some v ∧ l2.len = m.length + 1) := by
  constructor
  · intro l x m hr
    obtain ⟨l2, hw, hrep⟩ := front_mut_write_correct v hr
    refine ⟨l2, hw, hrep, ?_, ?_⟩
    · rw [front_represents hrep]
      rfl
    · rw [len_represent hrep]
      rfl
  · intro l y m hr
    obtain ⟨l2, hw, hrep⟩ := back_mut_write_correct v hr
    refine ⟨l2, hw, hrep, ?_, ?_⟩
    · rw [back_represents hrep, List.getLast?_concat]
    · rw [len_represent hrep]
      simp

/-- Witness for C10: overwriting the single element `5` with `9`. -/
theorem mut_overwrite_frame_witness :
    ∃ l2, (⟨[⟨5, none, none⟩], some (0, 0)⟩ : GhostLinkedList Nat).front_mut_write 9 =
        some l2 ∧ Represents l2 [9] ∧ l2.front = some 9 ∧ l2.len = 1 :=
  (mut_overwrite_frame Nat 9).1 _ 5 [] represents_single_example

end GhostSea
